import Mathlib

/-!
# Verification of the ffmpeg-sys build script (`build.rs`)

Shallow embedding of the build-time generator of `rust-ffmpeg-sys`:
the bindgen `ParseCallbacks` implementation (`int_macro`,
`enum_variant_behavior`), the header resolver (`search_include`), the
feature-gated header request list assembled in `thread_main`, the
stack-size handling in `main`, and the serde post-processing regex
rewrite applied to the generated bindings text.

Rust `&str` values are modelled as `List Char`; machine integers
(`i64`, `i32`) are modelled as `Int` with the explicit range checks the
source performs; the filesystem consulted by `fs::metadata` is an
explicit boolean oracle; panics are modelled as `Option.none`.
-/

set_option maxRecDepth 10000

namespace FfmpegSys

/-! ## Integer-kind inference: `int_macro` (build.rs lines 27-53)

`bindgen::callbacks::IntKind`, restricted to the variants the source
produces. -/

inductive IntKind where
  | Int : IntKind
  | UInt : IntKind
  | ULongLong : IntKind
  | Custom (name : List Char) (is_signed : Bool) : IntKind
  deriving DecidableEq, Repr

def ch_layout_prefix : List Char := ("AV_CH_").toList
def codec_cap_prefix : List Char := ("AV_CODEC_CAP_").toList
def codec_flag_prefix : List Char := ("AV_CODEC_FLAG_").toList
def error_max_size : List Char := ("AV_ERROR_MAX_STRING_SIZE").toList

/-- `i64::min_value()` -/
def i64_min : Int := -9223372036854775808
/-- `i64::max_value()` -/
def i64_max : Int := 9223372036854775807
/-- `i32::min_value()` -/
def i32_min : Int := -2147483648
/-- `i32::max_value()` -/
def i32_max : Int := 2147483647

/-- `fn int_macro(&self, _name: &str, value: i64) -> Option<IntKind>`,
translated clause for clause from build.rs lines 27-53.  The `value`
argument is the parsed macro literal (an `i64` in the source, hence an
`Int` here; theorems carry the 64-bit range of the Rust type as a
hypothesis where it matters). -/
def int_macro (name : List Char) (value : Int) : Option IntKind :=
  if i64_min ≤ value ∧ value ≤ i64_max ∧ ch_layout_prefix <+: name then
    some IntKind.ULongLong
  else if i32_min ≤ value ∧ value ≤ i32_max ∧
      ( codec_cap_prefix <+: name ∨ codec_flag_prefix <+: name) then
    some IntKind.UInt
  else if name = error_max_size then
    some (IntKind.Custom (("usize").toList) false)
  else if i32_min ≤ value ∧ value ≤ i32_max then
    some IntKind.Int
  else
    none

/-! ## Enum variant reclassification: `enum_variant_behavior`
(build.rs lines 55-67) -/

/-- `bindgen::callbacks::EnumVariantValue`. -/
inductive EnumVariantValue where
  | Boolean (val : Bool) : EnumVariantValue
  | Signed (val : Int) : EnumVariantValue
  | Unsigned (val : Nat) : EnumVariantValue
  deriving DecidableEq, Repr

/-- `bindgen::callbacks::EnumVariantCustomBehavior`, restricted to the
variant the source produces. -/
inductive EnumVariantCustomBehavior where
  | Constify : EnumVariantCustomBehavior
  deriving DecidableEq, Repr

def dummy_codec_id_prefix : List Char := ("AV_CODEC_ID_FIRST_").toList

/-- `fn enum_variant_behavior(...)`, build.rs lines 55-67.  The enum
name and the variant value are received but never consulted. -/
def enum_variant_behavior (_enum_name : Option (List Char))
    (original_variant_name : List Char)
    (_variant_value : EnumVariantValue) : Option EnumVariantCustomBehavior :=
  if dummy_codec_id_prefix <+: original_variant_name then
    some EnumVariantCustomBehavior.Constify
  else
    none

/-! ## Header resolver: `search_include` (build.rs lines 93-101)

The filesystem probed by `fs::metadata(..).is_ok()` is modelled as a
boolean oracle on paths; `PathBuf::join` of a directory and a relative
header becomes string concatenation with a `/` separator. -/

def joinPath (dir header : List Char) : List Char :=
  dir ++ ("/").toList ++ header

def usr_include : List Char := ("/usr/include/").toList

/-- `fn search_include(include_paths: &[PathBuf], header: &str) -> String`,
build.rs lines 93-101. -/
def search_include (fsExists : List Char → Bool)
    (include_paths : List (List Char)) (header : List Char) : List Char :=
  match include_paths with
  | [] => usr_include ++ header
  | dir :: rest =>
      if fsExists (joinPath dir header) then joinPath dir header
      else search_include fsExists rest header

example : search_include (fun p => p = ("B/h.h").toList) [("A").toList, ("B").toList] (("h.h").toList)
    = ("B/h.h").toList := by decide

example : search_include (fun _ => false) [("A").toList] (("h.h").toList)
    = ("/usr/include/h.h").toList := by decide

/-! ## Feature-gated header requests (build.rs lines 235-339)

`thread_main` hands headers to the bindgen builder in source order:
the emscripten header first, then the groups gated by the cargo
feature flags, the always-on libavutil block, and four further gated
groups after it.  We record the relative header names, in the order of
the `.header(...)` calls. -/

/-- The cargo feature flags consulted by `thread_main` when assembling
header requests (`CARGO_FEATURE_*` environment probes). -/
structure Flags where
  avcodec : Bool
  avdevice : Bool
  avfilter : Bool
  avformat : Bool
  avresample : Bool
  postproc : Bool
  swresample : Bool
  swscale : Bool
  lib_drm : Bool
  deriving DecidableEq, Repr

def avcodecHeaders : List String :=
  ["libavcodec/avcodec.h", "libavcodec/dv_profile.h", "libavcodec/avfft.h",
   "libavcodec/vaapi.h", "libavcodec/vorbis_parser.h"]

def avdeviceHeaders : List String := ["libavdevice/avdevice.h"]

def avfilterHeaders : List String :=
  ["libavfilter/buffersink.h", "libavfilter/buffersrc.h", "libavfilter/avfilter.h"]

def avformatHeaders : List String := ["libavformat/avformat.h", "libavformat/avio.h"]

def avresampleHeaders : List String := ["libavresample/avresample.h"]

/-- The always-on base libavutil block, build.rs lines 271-323, in
source order. -/
def avutilHeaders : List String :=
  ["libavutil/adler32.h", "libavutil/aes.h", "libavutil/audio_fifo.h",
   "libavutil/base64.h", "libavutil/blowfish.h", "libavutil/bprint.h",
   "libavutil/buffer.h", "libavutil/camellia.h", "libavutil/cast5.h",
   "libavutil/channel_layout.h", "libavutil/cpu.h", "libavutil/crc.h",
   "libavutil/dict.h", "libavutil/display.h", "libavutil/downmix_info.h",
   "libavutil/error.h", "libavutil/eval.h", "libavutil/fifo.h",
   "libavutil/file.h", "libavutil/frame.h", "libavutil/hash.h",
   "libavutil/hmac.h", "libavutil/imgutils.h", "libavutil/lfg.h",
   "libavutil/log.h", "libavutil/lzo.h", "libavutil/macros.h",
   "libavutil/mathematics.h", "libavutil/md5.h", "libavutil/mem.h",
   "libavutil/motion_vector.h", "libavutil/murmur3.h", "libavutil/opt.h",
   "libavutil/parseutils.h", "libavutil/pixdesc.h", "libavutil/pixfmt.h",
   "libavutil/random_seed.h", "libavutil/rational.h", "libavutil/replaygain.h",
   "libavutil/ripemd.h", "libavutil/samplefmt.h", "libavutil/sha.h",
   "libavutil/sha512.h", "libavutil/stereo3d.h", "libavutil/avstring.h",
   "libavutil/threadmessage.h", "libavutil/time.h", "libavutil/timecode.h",
   "libavutil/twofish.h", "libavutil/avutil.h", "libavutil/xtea.h",
   "libavutil/hwcontext.h"]

def postprocHeaders : List String := ["libpostproc/postprocess.h"]

def swresampleHeaders : List String := ["libswresample/swresample.h"]

def swscaleHeaders : List String := ["libswscale/swscale.h"]

def libDrmHeaders : List String := ["libavutil/hwcontext_drm.h"]

/-- The four gated groups that build.rs appends after the libavutil
block (lines 325-339), in source order. -/
def tailGroups (f : Flags) : List String :=
  (if f.postproc then postprocHeaders else [])
    ++ (if f.swresample then swresampleHeaders else [])
    ++ (if f.swscale then swscaleHeaders else [])
    ++ (if f.lib_drm then libDrmHeaders else [])

/-- The full sequence of header requests handed to the bindgen builder
by `thread_main`, build.rs lines 235-339, in the order of the
`.header(...)` calls. -/
def headerRequests (f : Flags) : List String :=
  ["emscripten.h"]
    ++ (if f.avcodec then avcodecHeaders else [])
    ++ (if f.avdevice then avdeviceHeaders else [])
    ++ (if f.avfilter then avfilterHeaders else [])
    ++ (if f.avformat then avformatHeaders else [])
    ++ (if f.avresample then avresampleHeaders else [])
    ++ avutilHeaders
    ++ tailGroups f

/-- All flags disabled. -/
def noFlags : Flags :=
  { avcodec := false, avdevice := false, avfilter := false, avformat := false,
    avresample := false, postproc := false, swresample := false,
    swscale := false, lib_drm := false }

/-! ## Stack-size handling in `main` (build.rs lines 79-90)

`env::var("FFMPEG_SYS_BUILD_STACK_SIZE")` is modelled as an
`Option String` (present / absent); `s.parse::<usize>()` as
`parse_usize`; the final `.unwrap()` panic as `Option.none`. -/

/-- Rust's `usize::MAX` on the 64-bit host that runs the build script. -/
def usize_max : Nat := 18446744073709551615

/-- `str::parse::<usize>()`: an optional leading `+`, then one or more
ASCII digits, no other characters; overflow past `usize::MAX` is an
error. -/
def parse_usize (s : String) : Except Unit Nat :=
  let digits := match s.toList with
    | '+' :: rest => rest
    | l => l
  if digits = [] then Except.error ()
  else if digits.all (fun c => c.isDigit) then
    let v := digits.foldl (fun acc c => 10 * acc + (c.toNat - 48)) 0
    if v ≤ usize_max then Except.ok v else Except.error ()
  else Except.error ()

/-- build.rs lines 79-81: the `Result<usize, ParseIntError>` named
`stack_size` before it is unwrapped. -/
def stack_size_result (envVar : Option String) : Except Unit Nat :=
  match envVar with
  | none => Except.ok (3 * 1024 * 1024)
  | some s => parse_usize s

/-- The stack size actually passed to `std::thread::Builder::stack_size`
after `stack_size.unwrap()` (build.rs line 86): `none` models the
panic of `unwrap` on a parse error, which aborts the build before the
worker thread is spawned. -/
def main_stack_size (envVar : Option String) : Option Nat :=
  match stack_size_result envVar with
  | Except.ok v => some v
  | Except.error _ => none

example : main_stack_size none = some 3145728 := by decide
example : main_stack_size (some "abc") = none := by decide
example : main_stack_size (some "4096") = some 4096 := by decide

/-! ## Serde post-processing (build.rs lines 349-361)

When `CARGO_FEATURE_SERDE` is set, `thread_main` rewrites the
generated bindings text with

`Regex::new(r"#\s*\[\s*derive\s*\((?P<d>[^)]+)\)\s*\]\s*pub\s*(?P<s>enum)").replace_all(...)`.

The pattern is deterministic at every starting position: each `\s*` is
followed by a non-whitespace literal and `[^)]+\)` necessarily stops at
the first `)` after the `(`, so a regex match at a position is exactly
a run of the character-level state machine below, and `replace_all`
(leftmost, non-overlapping) is the scan `replaceAll`.  The `s` capture
group is the literal `enum`, so the replacement instantiates `$s` to
`enum`. -/

/-- Rust regex `\s` (the Unicode White_Space class). -/
def isWs (c : Char) : Bool :=
  c.toNat = 0x9 || c.toNat = 0xA || c.toNat = 0xB || c.toNat = 0xC ||
  c.toNat = 0xD || c.toNat = 0x20 || c.toNat = 0x85 || c.toNat = 0xA0 ||
  c.toNat = 0x1680 || (0x2000 ≤ c.toNat && c.toNat ≤ 0x200A) ||
  c.toNat = 0x2028 || c.toNat = 0x2029 || c.toNat = 0x202F ||
  c.toNat = 0x205F || c.toNat = 0x3000

/-- Parser states of the pattern
`#\s*\[\s*derive\s*\((?P<d>[^)]+)\)\s*\]\s*pub\s*enum`, one constructor
per position between consecutive mandatory characters; literal words in
progress carry their pending characters, and the `d` capture is carried
once it is complete. -/
inductive PState where
  | q0 : PState
  | q1 : PState
  | q2 : PState
  | qD (pending : List Char) : PState
  | q3 : PState
  | qCap0 : PState
  | qCap (acc : List Char) : PState
  | q4 (d : List Char) : PState
  | q5 (d : List Char) : PState
  | qP (d : List Char) (pending : List Char) : PState
  | q6 (d : List Char) : PState
  | qE (d : List Char) (pending : List Char) : PState

/-- Outcome of feeding one character to the pattern machine. -/
inductive StepRes where
  | fail : StepRes
  | cont (q : PState) : StepRes
  | accept (d : List Char) : StepRes

/-- One character of the pattern
`#\s*\[\s*derive\s*\((?P<d>[^)]+)\)\s*\]\s*pub\s*enum`: `q0` expects
`#`, `q1` skips `\s*` up to `[`, `q2` up to the `d` of `derive`, `qD`
consumes the rest of `derive`, `q3` skips `\s*` up to `(`, `qCap0`
and `qCap` consume `[^)]+` and leave at the first `)`, `q4` skips
`\s*` up to `]`, `q5`/`qP` handle `pub`, `q6`/`qE` handle `enum`; the
final `m` of `enum` accepts, yielding the `d` capture. -/
def step : PState → Char → StepRes
  | PState.q0, c => if c = '#' then StepRes.cont PState.q1 else StepRes.fail
  | PState.q1, c =>
      if isWs c then StepRes.cont PState.q1
      else if c = '[' then StepRes.cont PState.q2 else StepRes.fail
  | PState.q2, c =>
      if isWs c then StepRes.cont PState.q2
      else if c = 'd' then StepRes.cont (PState.qD ['e','r','i','v','e'])
      else StepRes.fail
  | PState.qD [], _ => StepRes.fail
  | PState.qD (p :: ps), c =>
      if c = p then
        (if ps.isEmpty then StepRes.cont PState.q3 else StepRes.cont (PState.qD ps))
      else StepRes.fail
  | PState.q3, c =>
      if isWs c then StepRes.cont PState.q3
      else if c = '(' then StepRes.cont PState.qCap0 else StepRes.fail
  | PState.qCap0, c =>
      if c = ')' then StepRes.fail else StepRes.cont (PState.qCap [c])
  | PState.qCap acc, c =>
      if c = ')' then StepRes.cont (PState.q4 acc.reverse)
      else StepRes.cont (PState.qCap (c :: acc))
  | PState.q4 d, c =>
      if isWs c then StepRes.cont (PState.q4 d)
      else if c = ']' then StepRes.cont (PState.q5 d) else StepRes.fail
  | PState.q5 d, c =>
      if isWs c then StepRes.cont (PState.q5 d)
      else if c = 'p' then StepRes.cont (PState.qP d ['u','b'])
      else StepRes.fail
  | PState.qP _ [], _ => StepRes.fail
  | PState.qP d (p :: ps), c =>
      if c = p then
        (if ps.isEmpty then StepRes.cont (PState.q6 d)
         else StepRes.cont (PState.qP d ps))
      else StepRes.fail
  | PState.q6 d, c =>
      if isWs c then StepRes.cont (PState.q6 d)
      else if c = 'e' then StepRes.cont (PState.qE d ['n','u','m'])
      else StepRes.fail
  | PState.qE _ [], _ => StepRes.fail
  | PState.qE d (p :: ps), c =>
      if c = p then
        (if ps.isEmpty then StepRes.accept d else StepRes.cont (PState.qE d ps))
      else StepRes.fail

/-- Running the pattern machine from state `q` over the input: `none`
when the pattern fails at this starting position, `some (d, rest)` when
it matches, with `d` the capture and `rest` the input after the match. -/
def run (q : PState) : List Char → Option (List Char × List Char)
  | [] => none
  | c :: cs =>
      match step q c with
      | StepRes.fail => none
      | StepRes.accept d => some (d, cs)
      | StepRes.cont q' => run q' cs

theorem run_some_length :
    ∀ (s : List Char) (q : PState) (d r : List Char),
      run q s = some (d, r) → r.length < s.length := by
  intro s
  induction s with
  | nil => intro q d r h; simp [run] at h
  | cons c cs ih =>
      intro q d r h
      rw [run] at h
      cases hs : step q c with
      | fail => rw [hs] at h; simp at h
      | accept d' =>
          rw [hs] at h
          simp only [Option.some.injEq, Prod.mk.injEq] at h
          cases h.2
          simp
      | cont q' =>
          rw [hs] at h
          have := ih q' d r h
          simp only [List.length_cons]
          omega

/-- Prefix of the replacement text, up to the `$d` capture reference:
build.rs lines 354-359 with `$s` instantiated (the `s` group only ever
matches the literal `enum`). -/
def RA : List Char := ("\n            #[derive(").toList

/-- Suffix of the replacement text, after the `$d` capture reference. -/
def RB : List Char :=
  (")]\n            #[cfg_attr(feature = \"serde\", derive(serde::Serialize, serde::Deserialize))]\n            #[cfg_attr(feature = \"serde\", serde(rename_all = \"kebab-case\"))]\n            pub enum\n        ").toList

/-- `Regex::replace_all` of the derive-block pattern with the serde
replacement text: scan left to right; at a position where the pattern
matches, emit the replacement (prefix, capture, suffix) and resume
after the matched text; otherwise emit the character and move on. -/
def replaceAll : List Char → List Char
  | [] => []
  | c :: t =>
      match h : run PState.q0 (c :: t) with
      | some (d, r) => RA ++ (d ++ (RB ++ replaceAll r))
      | none => c :: replaceAll t
termination_by s => s.length
decreasing_by
  · have := run_some_length _ _ _ _ h
    simpa using this
  · simp

/-- build.rs lines 349-361: the generated bindings text is rewritten
only when the serde cargo feature is enabled. -/
def postprocess (serde : Bool) (text : List Char) : List Char :=
  if serde then replaceAll text else text

example :
    run PState.q0 (("#[derive(Debug)] pub enum Foo").toList)
      = some (("Debug").toList, (" Foo").toList) := by decide

/-! ### Unfolding equations for `replaceAll` -/

theorem replaceAll_nil : replaceAll [] = [] := by
  rw [replaceAll]

theorem replaceAll_cons_some {c : Char} {t d r : List Char}
    (h : run PState.q0 (c :: t) = some (d, r)) :
    replaceAll (c :: t) = RA ++ (d ++ (RB ++ replaceAll r)) := by
  rw [replaceAll]
  split
  · rename_i d' r' h'
    rw [h] at h'
    simp only [Option.some.injEq, Prod.mk.injEq] at h'
    rw [h'.1, h'.2]
  · rename_i h'
    rw [h] at h'
    cases h'

theorem replaceAll_cons_none {c : Char} {t : List Char}
    (h : run PState.q0 (c :: t) = none) :
    replaceAll (c :: t) = c :: replaceAll t := by
  rw [replaceAll]
  split
  · rename_i d' r' h'
    rw [h] at h'
    cases h'
  · rfl

/-! ### State predicates

`PreCap` holds at the states the machine can be in before it has
consumed the `)` that closes the capture; starting from such a state,
no character other than `)` can take the machine past the capture.
`StateOK` holds at every state reachable from `q0` on any input (the
literal-pending fields only ever hold suffixes of the literals, and
capture payloads never contain `)` -- the payload part is `CapInv`). -/

def PreCap : PState → Prop
  | PState.q0 => True
  | PState.q1 => True
  | PState.q2 => True
  | PState.qD p => (')') ∉ p
  | PState.q3 => True
  | PState.qCap0 => True
  | PState.qCap _ => True
  | _ => False

def StateOK : PState → Prop
  | PState.qD p => (')') ∉ p
  | PState.qP _ p => p = ['u', 'b'] ∨ p = ['b']
  | PState.qE _ p => p = ['n', 'u', 'm'] ∨ p = ['u', 'm'] ∨ p = ['m']
  | _ => True

def CapInv : PState → Prop
  | PState.qCap acc => (')') ∉ acc
  | PState.q4 d => (')') ∉ d
  | PState.q5 d => (')') ∉ d
  | PState.qP d _ => (')') ∉ d
  | PState.q6 d => (')') ∉ d
  | PState.qE d _ => (')') ∉ d
  | _ => True

theorem step_precap {q : PState} {c : Char} (hq : PreCap q) (hc : ¬ c = ')') :
    step q c = StepRes.fail ∨
      ∃ q', step q c = StepRes.cont q' ∧ PreCap q' := by
  cases q with
  | q0 =>
      by_cases h : c = '#'
      · subst h; simp [step, PreCap]
      · simp [step, h]
  | q1 =>
      by_cases hw : isWs c
      · simp [step, hw, PreCap]
      · by_cases h : c = '['
        · subst h; simp [step, hw, PreCap]
        · simp [step, hw, h]
  | q2 =>
      by_cases hw : isWs c
      · simp [step, hw, PreCap]
      · by_cases h : c = 'd'
        · subst h; simp [step, hw, PreCap]
        · simp [step, hw, h]
  | qD p =>
      cases p with
      | nil => simp [step]
      | cons x xs =>
          simp only [PreCap, List.mem_cons, not_or] at hq
          by_cases h : c = x
          · subst h
            cases xs with
            | nil => simp [step, PreCap]
            | cons y ys => simp [step, PreCap, hq.2]
          · simp [step, h]
  | q3 =>
      by_cases hw : isWs c
      · simp [step, hw, PreCap]
      · by_cases h : c = '('
        · subst h; simp [step, hw, PreCap]
        · simp [step, hw, h]
  | qCap0 =>
      simp [step, hc, PreCap]
  | qCap acc =>
      simp [step, hc, PreCap]
  | q4 d => simp [PreCap] at hq
  | q5 d => simp [PreCap] at hq
  | qP d p => simp [PreCap] at hq
  | q6 d => simp [PreCap] at hq
  | qE d p => simp [PreCap] at hq

theorem step_stateOK {q q' : PState} {c : Char} (hq : StateOK q)
    (h : step q c = StepRes.cont q') : StateOK q' := by
  cases q with
  | q0 =>
      by_cases hh : c = '#'
      · subst hh; simp [step] at h; simp [← h, StateOK]
      · simp [step, hh] at h
  | q1 =>
      by_cases hw : isWs c
      · simp [step, hw] at h; simp [← h, StateOK]
      · by_cases hh : c = '['
        · subst hh; simp [step, hw] at h; simp [← h, StateOK]
        · simp [step, hw, hh] at h
  | q2 =>
      by_cases hw : isWs c
      · simp [step, hw] at h; simp [← h, StateOK]
      · by_cases hh : c = 'd'
        · subst hh; simp [step, hw] at h; simp [← h, StateOK]
        · simp [step, hw, hh] at h
  | qD p =>
      cases p with
      | nil => simp [step] at h
      | cons x xs =>
          simp only [StateOK, List.mem_cons, not_or] at hq
          by_cases hh : c = x
          · cases xs with
            | nil => simp [step, hh] at h; simp [← h, StateOK]
            | cons y ys =>
                simp [step, hh] at h
                simp [← h, StateOK, hq.2]
          · simp [step, hh] at h
  | q3 =>
      by_cases hw : isWs c
      · simp [step, hw] at h; simp [← h, StateOK]
      · by_cases hh : c = '('
        · subst hh; simp [step, hw] at h; simp [← h, StateOK]
        · simp [step, hw, hh] at h
  | qCap0 =>
      by_cases hh : c = ')'
      · subst hh; simp [step] at h
      · simp [step, hh] at h; simp [← h, StateOK]
  | qCap acc =>
      by_cases hh : c = ')' <;> simp [step, hh] at h <;> simp [← h, StateOK]
  | q4 d =>
      by_cases hw : isWs c
      · simp [step, hw] at h; simp [← h, StateOK]
      · by_cases hh : c = ']'
        · subst hh; simp [step, hw] at h; simp [← h, StateOK]
        · simp [step, hw, hh] at h
  | q5 d =>
      by_cases hw : isWs c
      · simp [step, hw] at h; simp [← h, StateOK]
      · by_cases hh : c = 'p'
        · subst hh; simp [step, hw] at h; simp [← h, StateOK]
        · simp [step, hw, hh] at h
  | qP d p =>
      rcases hq with hq | hq <;> subst hq
      · by_cases hh : c = 'u'
        · subst hh; simp [step] at h; simp [← h, StateOK]
        · simp [step, hh] at h
      · by_cases hh : c = 'b'
        · subst hh; simp [step] at h; simp [← h, StateOK]
        · simp [step, hh] at h
  | q6 d =>
      by_cases hw : isWs c
      · simp [step, hw] at h; simp [← h, StateOK]
      · by_cases hh : c = 'e'
        · subst hh; simp [step, hw] at h; simp [← h, StateOK]
        · simp [step, hw, hh] at h
  | qE d p =>
      rcases hq with hq | hq | hq <;> subst hq
      · by_cases hh : c = 'n'
        · subst hh; simp [step] at h; simp [← h, StateOK]
        · simp [step, hh] at h
      · by_cases hh : c = 'u'
        · subst hh; simp [step] at h; simp [← h, StateOK]
        · simp [step, hh] at h
      · by_cases hh : c = 'm'
        · subst hh; simp [step] at h
        · simp [step, hh] at h

/-! ### The replacement suffix blocks the machine

Every pre-capture state fed `RB ++ w` dies inside `RB`: `RB` starts
with `)`, which either fails outright or closes the capture, after
which the `]` is accepted but the following `#[cfg_attr` fails the
`pub` literal.  By induction, a pre-capture state survives an arbitrary
`)`-free text `u` only into another pre-capture state, so
`u ++ RB ++ w` is rejected from any pre-capture state. -/

def RBtail : List Char :=
  ("\n            #[cfg_attr(feature = \"serde\", derive(serde::Serialize, serde::Deserialize))]\n            #[cfg_attr(feature = \"serde\", serde(rename_all = \"kebab-case\"))]\n            pub enum\n        ").toList

theorem RB_cons : RB = (')') :: (']') :: RBtail := rfl

theorem run_precap_none :
    ∀ (u : List Char), (')') ∉ u → ∀ (q : PState), PreCap q →
      ∀ (w : List Char), run q (u ++ (RB ++ w)) = none := by
  intro u
  induction u with
  | nil =>
      intro _ q hq w
      simp only [List.nil_append]
      cases q with
      | q0 => rfl
      | q1 => rfl
      | q2 => rfl
      | q3 => rfl
      | qCap0 => rfl
      | qCap acc => rfl
      | qD p =>
          cases p with
          | nil => rfl
          | cons x xs =>
              simp only [PreCap, List.mem_cons, not_or] at hq
              rw [RB_cons]
              simp [run, step, hq.1]
      | q4 d => exact absurd hq (by simp [PreCap])
      | q5 d => exact absurd hq (by simp [PreCap])
      | qP d p => exact absurd hq (by simp [PreCap])
      | q6 d => exact absurd hq (by simp [PreCap])
      | qE d p => exact absurd hq (by simp [PreCap])
  | cons c u' ih =>
      intro hu q hq w
      simp only [List.mem_cons, not_or] at hu
      have hc : ¬ c = ')' := fun hh => hu.1 (hh ▸ rfl)
      rcases step_precap hq hc with hf | ⟨q', hs, hq'⟩
      · simp [run, hf]
      · simp only [List.cons_append]
        rw [run, hs]
        exact ih hu.2 q' hq' w

/-! ### A whole replacement block blocks the machine

Feeding `RA ++ d ++ RB ++ w` (one replacement block and then anything)
to the machine from any reachable state yields no match: pre-capture
states stay pre-capture across the `)`-free text `RA ++ d` and die in
`RB`; post-capture states die on the first characters of `RA`. -/

theorem not_rparen_mem_RA : (')') ∉ RA := by decide

theorem run_stateOK_repl {q : PState} (hq : StateOK q) {d : List Char}
    (hd : (')') ∉ d) (w : List Char) :
    run q (RA ++ (d ++ (RB ++ w))) = none := by
  have hRAd : (')') ∉ RA ++ d := by
    intro hmem
    rcases List.mem_append.mp hmem with h | h
    · exact not_rparen_mem_RA h
    · exact hd h
  have assoc : RA ++ (d ++ (RB ++ w)) = (RA ++ d) ++ (RB ++ w) := by
    simp [List.append_assoc]
  cases q with
  | q0 => rw [assoc]; exact run_precap_none (RA ++ d) hRAd PState.q0 trivial w
  | q1 => rw [assoc]; exact run_precap_none (RA ++ d) hRAd PState.q1 trivial w
  | q2 => rw [assoc]; exact run_precap_none (RA ++ d) hRAd PState.q2 trivial w
  | q3 => rw [assoc]; exact run_precap_none (RA ++ d) hRAd PState.q3 trivial w
  | qCap0 => rw [assoc]; exact run_precap_none (RA ++ d) hRAd PState.qCap0 trivial w
  | qCap acc => rw [assoc]; exact run_precap_none (RA ++ d) hRAd (PState.qCap acc) trivial w
  | qD p => rw [assoc]; exact run_precap_none (RA ++ d) hRAd (PState.qD p) hq w
  | q4 d' => rfl
  | q5 d' => rfl
  | q6 d' => rfl
  | qP d' p => rcases hq with h | h <;> subst h <;> rfl
  | qE d' p => rcases hq with h | h | h <;> subst h <;> rfl

/-! ### The capture never contains a closing parenthesis -/

theorem step_capinv {q q' : PState} {c : Char} (hq : CapInv q)
    (h : step q c = StepRes.cont q') : CapInv q' := by
  cases q with
  | q0 =>
      by_cases hh : c = '#'
      · subst hh; simp [step] at h; simp [← h, CapInv]
      · simp [step, hh] at h
  | q1 =>
      by_cases hw : isWs c
      · simp [step, hw] at h; simp [← h, CapInv]
      · by_cases hh : c = '['
        · subst hh; simp [step, hw] at h; simp [← h, CapInv]
        · simp [step, hw, hh] at h
  | q2 =>
      by_cases hw : isWs c
      · simp [step, hw] at h; simp [← h, CapInv]
      · by_cases hh : c = 'd'
        · subst hh; simp [step, hw] at h; simp [← h, CapInv]
        · simp [step, hw, hh] at h
  | qD p =>
      cases p with
      | nil => simp [step] at h
      | cons x xs =>
          by_cases hh : c = x
          · subst hh
            cases xs with
            | nil => simp [step] at h; simp [← h, CapInv]
            | cons y ys => simp [step] at h; simp [← h, CapInv]
          · simp [step, hh] at h
  | q3 =>
      by_cases hw : isWs c
      · simp [step, hw] at h; simp [← h, CapInv]
      · by_cases hh : c = '('
        · subst hh; simp [step, hw] at h; simp [← h, CapInv]
        · simp [step, hw, hh] at h
  | qCap0 =>
      by_cases hh : c = ')'
      · subst hh; simp [step] at h
      · simp [step, hh] at h
        simp [← h, CapInv, hh]
        exact fun hx => hh hx.symm
  | qCap acc =>
      by_cases hh : c = ')'
      · subst hh
        simp [step] at h
        simp only [CapInv] at hq
        simp [← h, CapInv, hq]
      · simp [step, hh] at h
        simp only [CapInv] at hq
        simp [← h, CapInv, hh, hq]
        exact fun hx => hh hx.symm
  | q4 d =>
      by_cases hw : isWs c
      · simp [step, hw] at h; simpa [← h, CapInv] using hq
      · by_cases hh : c = ']'
        · subst hh; simp [step, hw] at h; simpa [← h, CapInv] using hq
        · simp [step, hw, hh] at h
  | q5 d =>
      by_cases hw : isWs c
      · simp [step, hw] at h; simpa [← h, CapInv] using hq
      · by_cases hh : c = 'p'
        · subst hh; simp [step, hw] at h; simpa [← h, CapInv] using hq
        · simp [step, hw, hh] at h
  | qP d p =>
      cases p with
      | nil => simp [step] at h
      | cons x xs =>
          by_cases hh : c = x
          · subst hh
            cases xs with
            | nil => simp [step] at h; simpa [← h, CapInv] using hq
            | cons y ys => simp [step] at h; simpa [← h, CapInv] using hq
          · simp [step, hh] at h
  | q6 d =>
      by_cases hw : isWs c
      · simp [step, hw] at h; simpa [← h, CapInv] using hq
      · by_cases hh : c = 'e'
        · subst hh; simp [step, hw] at h; simpa [← h, CapInv] using hq
        · simp [step, hw, hh] at h
  | qE d p =>
      cases p with
      | nil => simp [step] at h
      | cons x xs =>
          by_cases hh : c = x
          · subst hh
            cases xs with
            | nil => simp [step] at h
            | cons y ys => simp [step] at h; simpa [← h, CapInv] using hq
          · simp [step, hh] at h

theorem step_accept_capinv {q : PState} {c : Char} {d : List Char}
    (hq : CapInv q) (h : step q c = StepRes.accept d) : (')') ∉ d := by
  cases q with
  | qE d' p =>
      cases p with
      | nil => simp [step] at h
      | cons x xs =>
          by_cases hh : c = x
          · subst hh
            cases xs with
            | nil =>
                simp [step] at h
                simpa [← h] using hq
            | cons y ys => simp [step] at h
          · simp [step, hh] at h
  | q0 =>
      by_cases hh : c = '#'
      · subst hh; simp [step] at h
      · simp [step, hh] at h
  | q1 =>
      by_cases hw : isWs c
      · simp [step, hw] at h
      · by_cases hh : c = '['
        · subst hh; simp [step, hw] at h
        · simp [step, hw, hh] at h
  | q2 =>
      by_cases hw : isWs c
      · simp [step, hw] at h
      · by_cases hh : c = 'd'
        · subst hh; simp [step, hw] at h
        · simp [step, hw, hh] at h
  | qD p =>
      cases p with
      | nil => simp [step] at h
      | cons x xs =>
          by_cases hh : c = x
          · subst hh; cases xs <;> simp [step] at h
          · simp [step, hh] at h
  | q3 =>
      by_cases hw : isWs c
      · simp [step, hw] at h
      · by_cases hh : c = '('
        · subst hh; simp [step, hw] at h
        · simp [step, hw, hh] at h
  | qCap0 =>
      by_cases hh : c = ')' <;> simp [step, hh] at h
  | qCap acc =>
      by_cases hh : c = ')' <;> simp [step, hh] at h
  | q4 d' =>
      by_cases hw : isWs c
      · simp [step, hw] at h
      · by_cases hh : c = ']'
        · subst hh; simp [step, hw] at h
        · simp [step, hw, hh] at h
  | q5 d' =>
      by_cases hw : isWs c
      · simp [step, hw] at h
      · by_cases hh : c = 'p'
        · subst hh; simp [step, hw] at h
        · simp [step, hw, hh] at h
  | qP d' p =>
      cases p with
      | nil => simp [step] at h
      | cons x xs =>
          by_cases hh : c = x
          · subst hh; cases xs <;> simp [step] at h
          · simp [step, hh] at h
  | q6 d' =>
      by_cases hw : isWs c
      · simp [step, hw] at h
      · by_cases hh : c = 'e'
        · subst hh; simp [step, hw] at h
        · simp [step, hw, hh] at h

theorem run_capinv :
    ∀ (s : List Char) (q : PState), CapInv q →
      ∀ d r, run q s = some (d, r) → (')') ∉ d := by
  intro s
  induction s with
  | nil => intro q _ d r h; simp [run] at h
  | cons c cs ih =>
      intro q hq d r h
      rw [run] at h
      cases hs : step q c with
      | fail => rw [hs] at h; simp at h
      | accept d' =>
          rw [hs] at h
          simp only [Option.some.injEq, Prod.mk.injEq] at h
          rw [← h.1]
          exact step_accept_capinv hq hs
      | cont q' =>
          rw [hs] at h
          exact ih q' (step_capinv hq hs) d r h

/-! ### Rewriting preserves rejection

If the machine rejects `t` from a reachable state, it also rejects
`replaceAll t` from that state: replacement blocks reject every
reachable state outright, and outside them `replaceAll` only copies
characters the machine sees unchanged. -/

theorem run_replaceAll_none :
    ∀ (n : Nat) (t : List Char), t.length ≤ n → ∀ (q : PState), StateOK q →
      run q t = none → run q (replaceAll t) = none := by
  intro n
  induction n with
  | zero =>
      intro t ht q _ _
      have h0 : t = [] := List.length_eq_zero.mp (Nat.le_zero.mp ht)
      subst h0
      rw [replaceAll_nil]
      rfl
  | succ n ih =>
      intro t ht q hq h
      cases t with
      | nil => rw [replaceAll_nil]; rfl
      | cons c t' =>
          cases hr : run PState.q0 (c :: t') with
          | some p =>
              obtain ⟨d, r⟩ := p
              rw [replaceAll_cons_some hr]
              exact run_stateOK_repl hq (run_capinv _ PState.q0 trivial d r hr) _
          | none =>
              rw [replaceAll_cons_none hr]
              rw [run] at h
              cases hs : step q c with
              | fail => simp [run, hs]
              | accept d => rw [hs] at h; simp at h
              | cont q' =>
                  rw [hs] at h
                  have ht' : t'.length ≤ n := by
                    simp only [List.length_cons] at ht
                    omega
                  simp only [run, hs]
                  exact ih t' ht' q' (step_stateOK hq hs) h

/-! ### No match anywhere in the output -/

theorem suffix_append_cases {u a b : List Char} (h : u <:+ a ++ b) :
    u <:+ b ∨ ∃ z, z <:+ a ∧ u = z ++ b := by
  obtain ⟨p, hp⟩ := h
  rcases List.append_eq_append_iff.mp hp with ⟨z, hz1, hz2⟩ | ⟨z, hz1, hz2⟩
  · exact Or.inr ⟨z, ⟨p, hz1.symm⟩, hz2⟩
  · exact Or.inl ⟨z, hz2.symm⟩

/-- Nonempty suffix of `RB` that starts at its first `#`. -/
def cfg1 : List Char :=
  ("#[cfg_attr(feature = \"serde\", derive(serde::Serialize, serde::Deserialize))]\n            #[cfg_attr(feature = \"serde\", serde(rename_all = \"kebab-case\"))]\n            pub enum\n        ").toList

/-- Nonempty suffix of `RB` that starts at its second `#`. -/
def cfg2 : List Char :=
  ("#[cfg_attr(feature = \"serde\", serde(rename_all = \"kebab-case\"))]\n            pub enum\n        ").toList

/-- Nonempty suffix of `RA` that starts at its `#`. -/
def hashderive : List Char := ("#[derive(").toList

theorem RB_tails_classified :
    ∀ zb ∈ RB.tails, zb = [] ∨ zb.head? ≠ some '#' ∨ zb = cfg1 ∨ zb = cfg2 := by
  decide

theorem RA_tails_classified :
    ∀ za ∈ RA.tails, za = [] ∨ za.head? ≠ some '#' ∨ za = hashderive := by
  decide

theorem run_nonhash {c : Char} (h : ¬ c = '#') (z : List Char) :
    run PState.q0 (c :: z) = none := by
  simp [run, step, h]

theorem run_cfg1 (v : List Char) : run PState.q0 (cfg1 ++ v) = none := rfl

theorem run_cfg2 (v : List Char) : run PState.q0 (cfg2 ++ v) = none := rfl

theorem run_hashderive (x : List Char) :
    run PState.q0 (hashderive ++ x) = run PState.qCap0 x := rfl

theorem run_RB_suffix {zb : List Char} (hzb : zb <:+ RB) {v : List Char}
    (hv : run PState.q0 v = none) : run PState.q0 (zb ++ v) = none := by
  rcases RB_tails_classified zb ((List.mem_tails _ _).mpr hzb) with h0 | hh | h1 | h2
  · subst h0; simpa using hv
  · cases zb with
    | nil => simpa using hv
    | cons x zs =>
        simp only [List.head?] at hh
        have hx : ¬ x = '#' := fun hx => hh (by rw [hx])
        simpa only [List.cons_append] using run_nonhash hx (zs ++ v)
  · subst h1; exact run_cfg1 v
  · subst h2; exact run_cfg2 v

theorem replaceAll_noMatch :
    ∀ (n : Nat) (s : List Char), s.length ≤ n →
      ∀ u, u <:+ replaceAll s → run PState.q0 u = none := by
  intro n
  induction n with
  | zero =>
      intro s hs u hu
      have h0 : s = [] := List.length_eq_zero.mp (Nat.le_zero.mp hs)
      subst h0
      rw [replaceAll_nil] at hu
      have : u = [] := List.suffix_nil.mp hu
      subst this
      rfl
  | succ n ih =>
      intro s hs u hu
      cases s with
      | nil =>
          rw [replaceAll_nil] at hu
          have : u = [] := List.suffix_nil.mp hu
          subst this
          rfl
      | cons c t =>
          cases hr : run PState.q0 (c :: t) with
          | some p =>
              obtain ⟨d, r⟩ := p
              have hd : (')') ∉ d := run_capinv _ PState.q0 trivial d r hr
              have hlen : r.length ≤ n := by
                have := run_some_length _ _ _ _ hr
                simp only [List.length_cons] at this hs
                omega
              rw [replaceAll_cons_some hr] at hu
              rcases suffix_append_cases hu with hu1 | ⟨za, hza, rfl⟩
              · rcases suffix_append_cases hu1 with hu2 | ⟨zd, hzd, rfl⟩
                · rcases suffix_append_cases hu2 with hu3 | ⟨zb, hzb, rfl⟩
                  · exact ih r hlen u hu3
                  · exact run_RB_suffix hzb (ih r hlen _ List.suffix_rfl)
                · have hzd' : (')') ∉ zd := fun hm => hd (hzd.subset hm)
                  exact run_precap_none zd hzd' PState.q0 trivial (replaceAll r)
              · rcases RA_tails_classified za ((List.mem_tails _ _).mpr hza)
                  with h0 | hh | h1
                · subst h0
                  simpa using run_precap_none d hd PState.q0 trivial (replaceAll r)
                · cases za with
                  | nil =>
                      simpa using run_precap_none d hd PState.q0 trivial (replaceAll r)
                  | cons x zs =>
                      simp only [List.head?] at hh
                      have hx : ¬ x = '#' := fun hx => hh (by rw [hx])
                      simpa only [List.cons_append] using
                        run_nonhash hx (zs ++ (d ++ (RB ++ replaceAll r)))
                · subst h1
                  rw [run_hashderive]
                  exact run_precap_none d hd PState.qCap0 trivial (replaceAll r)
          | none =>
              rw [replaceAll_cons_none hr] at hu
              rcases List.suffix_cons_iff.mp hu with h1 | h2
              · subst h1
                rw [run] at hr ⊢
                cases hs' : step PState.q0 c with
                | fail => simp [hs']
                | accept d => rw [hs'] at hr; simp at hr
                | cont q' =>
                    rw [hs'] at hr
                    simp only [hs']
                    exact run_replaceAll_none t.length t le_rfl q'
                      (step_stateOK (show StateOK PState.q0 from trivial) hs') hr
              · have hlt : t.length ≤ n := by
                  simp only [List.length_cons] at hs
                  omega
                exact ih t hlt u h2

/-! ### Idempotence of the rewrite -/

theorem replaceAll_of_noMatch :
    ∀ (t : List Char), (∀ u, u <:+ t → run PState.q0 u = none) →
      replaceAll t = t := by
  intro t
  induction t with
  | nil => intro _; exact replaceAll_nil
  | cons c t' ih =>
      intro h
      rw [replaceAll_cons_none (h _ List.suffix_rfl)]
      rw [ih (fun u hu => h u (hu.trans (List.suffix_cons c t')))]

theorem replaceAll_idem (s : List Char) :
    replaceAll (replaceAll s) = replaceAll s := by
  exact replaceAll_of_noMatch (replaceAll s)
    (replaceAll_noMatch s.length s le_rfl)

/-! ## Claim theorems -/

/-- C1: for every macro name starting with `AV_CODEC_CAP_` or
`AV_CODEC_FLAG_` whose value lies in the 32-bit signed range,
`int_macro` classifies it as `IntKind::UInt`; the prefix rule wins over
the generic signed-32-bit fallback (which would have produced
`IntKind::Int`). -/
theorem c1_codec_prefix_uint (name : List Char) (value : Int)
    (hpfx : codec_cap_prefix <+: name ∨ codec_flag_prefix <+: name)
    (hlo : i32_min ≤ value) (hhi : value ≤ i32_max) :
    int_macro name value = some IntKind.UInt := by
  have hch : ¬ ( ch_layout_prefix <+: name) := by
    intro hch
    rcases hpfx with h | h
    · exact absurd (List.prefix_of_prefix_length_le hch h (by decide)) (by decide)
    · exact absurd (List.prefix_of_prefix_length_le hch h (by decide)) (by decide)
  unfold int_macro
  rw [if_neg (fun hcon => hch hcon.2.2), if_pos ⟨hlo, hhi, hpfx⟩]

/-- C1 witness: the codec-capability macro `AV_CODEC_CAP_DR1` with
value 2 is classified unsigned 32-bit. -/
theorem c1_witness :
    ( codec_cap_prefix <+: ("AV_CODEC_CAP_DR1").toList ∨
      codec_flag_prefix <+: ("AV_CODEC_CAP_DR1").toList) ∧
    int_macro (("AV_CODEC_CAP_DR1").toList) 2 = some IntKind.UInt :=
  ⟨Or.inl (by decide),
    c1_codec_prefix_uint (("AV_CODEC_CAP_DR1").toList) 2 (Or.inl (by decide))
      (by decide) (by decide)⟩

/-- C2: for every macro name starting with `AV_CH_` whose value is
representable in a 64-bit signed integer, `int_macro` classifies it as
`IntKind::ULongLong`, whatever the sign of the parsed value. -/
theorem c2_ch_layout_ulonglong (name : List Char) (value : Int)
    (hpfx : ch_layout_prefix <+: name)
    (hlo : i64_min ≤ value) (hhi : value ≤ i64_max) :
    int_macro name value = some IntKind.ULongLong := by
  unfold int_macro
  rw [if_pos ⟨hlo, hhi, hpfx⟩]

/-- C2 witness: `AV_CH_LAYOUT_NATIVE`, whose literal reads back as the
negative value `i64::MIN`, is still classified unsigned 64-bit. -/
theorem c2_witness :
    ch_layout_prefix <+: ("AV_CH_LAYOUT_NATIVE").toList ∧
    (-9223372036854775808 : Int) < 0 ∧
    int_macro (("AV_CH_LAYOUT_NATIVE").toList) (-9223372036854775808)
      = some IntKind.ULongLong :=
  ⟨by decide, by decide,
    c2_ch_layout_ulonglong (("AV_CH_LAYOUT_NATIVE").toList)
      (-9223372036854775808) (by decide) (by decide) (by decide)⟩

/-- C3 counterexample: the variant name `_FIRST_DUMMY` begins with the
`_FIRST_` sentinel text, yet `enum_variant_behavior` does not constify
it -- the code keys on the full prefix `AV_CODEC_ID_FIRST_`, not on
`_FIRST_`. -/
theorem c3_counterexample :
    ("_FIRST_").toList <+: ("_FIRST_DUMMY").toList ∧
    enum_variant_behavior none (("_FIRST_DUMMY").toList)
        (EnumVariantValue.Signed 0)
      ≠ some EnumVariantCustomBehavior.Constify := by
  exact ⟨by decide, by decide⟩

/-- C3 amended: for every enum variant the classification decision
depends only on the variant's name -- the enum name and the variant
value are never consulted -- and every variant whose name begins with
the full sentinel prefix `AV_CODEC_ID_FIRST_` is emitted as a
constant. -/
theorem c3_amended (v : List Char) :
    (∀ (e e' : Option (List Char)) (val val' : EnumVariantValue),
      enum_variant_behavior e v val = enum_variant_behavior e' v val') ∧
    ( dummy_codec_id_prefix <+: v →
      ∀ (e : Option (List Char)) (val : EnumVariantValue),
        enum_variant_behavior e v val
          = some EnumVariantCustomBehavior.Constify) := by
  refine ⟨fun e e' val val' => rfl, fun h e val => ?_⟩
  unfold enum_variant_behavior
  rw [if_pos h]

/-- C3 witness: the sentinel variant `AV_CODEC_ID_FIRST_AUDIO` is
constified, and the classification of `AVCOL_SPC_RGB` does not change
when the enum name and the variant value do. -/
theorem c3_witness :
    dummy_codec_id_prefix <+: ("AV_CODEC_ID_FIRST_AUDIO").toList ∧
    enum_variant_behavior none (("AV_CODEC_ID_FIRST_AUDIO").toList)
        (EnumVariantValue.Unsigned 65536)
      = some EnumVariantCustomBehavior.Constify ∧
    enum_variant_behavior none (("AVCOL_SPC_RGB").toList)
        (EnumVariantValue.Signed 0)
      = enum_variant_behavior (some (("AVColorSpace").toList))
        (("AVCOL_SPC_RGB").toList) (EnumVariantValue.Unsigned 4) :=
  ⟨by decide,
    (c3_amended (("AV_CODEC_ID_FIRST_AUDIO").toList)).2 (by decide) none
      (EnumVariantValue.Unsigned 65536),
    (c3_amended (("AVCOL_SPC_RGB").toList)).1 none
      (some (("AVColorSpace").toList)) (EnumVariantValue.Signed 0)
      (EnumVariantValue.Unsigned 4)⟩

/-- All cargo feature flags disabled except postproc. -/
def postprocOnly : Flags :=
  { avcodec := false, avdevice := false, avfilter := false, avformat := false,
    avresample := false, postproc := true, swresample := false,
    swscale := false, lib_drm := false }

/-- C4 counterexample: with only the postproc feature enabled, the
request list does not end with the base libavutil block -- the
flag-conditional `libpostproc/postprocess.h` comes after it. -/
theorem c4_counterexample :
    ¬ (avutilHeaders <:+ headerRequests postprocOnly) ∧
    (headerRequests postprocOnly).getLast? = some "libpostproc/postprocess.h" ∧
    "libpostproc/postprocess.h" ∉ avutilHeaders := by
  exact ⟨by decide, by decide, by decide⟩

theorem suffix_getLast {l₁ l₂ : List String} (h : l₁ <:+ l₂)
    (hne : l₁ ≠ []) : l₂.getLast? = l₁.getLast? := by
  obtain ⟨p, rfl⟩ := h
  exact List.getLast?_append_of_ne_nil p hne

/-- Whenever one of the four trailing feature flags is enabled, the
trailing gated block is nonempty and its last header differs from the
last base libavutil header. -/
theorem tailGroups_last (f : Flags)
    (h : f.postproc = true ∨ f.swresample = true ∨ f.swscale = true ∨
      f.lib_drm = true) :
    tailGroups f ≠ [] ∧
      (tailGroups f).getLast? ≠ some "libavutil/hwcontext.h" := by
  cases hp : f.postproc <;> cases hsr : f.swresample <;>
      cases hsc : f.swscale <;> cases hl : f.lib_drm <;>
      rw [tailGroups, hp, hsr, hsc, hl]
  · simp only [hp, hsr, hsc, hl] at h
    simp at h
  all_goals exact ⟨by decide, by decide⟩

/-- C4 amended: the base libavutil block is appended after every group
gated by the avcodec, avdevice, avfilter, avformat and avresample
flags -- for every flag combination the request list ends with the
base block followed only by the postproc, swresample, swscale and
lib_drm groups; the request list ends with the base block exactly when
those four trailing flags are disabled: if all four are disabled the
base block is a suffix, and if any of them is enabled it is not. -/
theorem c4_amended (f : Flags) :
    (avutilHeaders ++ tailGroups f) <:+ headerRequests f ∧
    (f.postproc = false → f.swresample = false → f.swscale = false →
      f.lib_drm = false → avutilHeaders <:+ headerRequests f) ∧
    (f.postproc = true ∨ f.swresample = true ∨ f.swscale = true ∨
      f.lib_drm = true → ¬ avutilHeaders <:+ headerRequests f) := by
  have hsuf : (avutilHeaders ++ tailGroups f) <:+ headerRequests f := by
    simp only [headerRequests, List.append_assoc]
    exact (List.suffix_append _ _).trans ((List.suffix_append _ _).trans
      ((List.suffix_append _ _).trans ((List.suffix_append _ _).trans
        ((List.suffix_append _ _).trans (List.suffix_append _ _)))))
  refine ⟨hsuf, fun h1 h2 h3 h4 => ?_, fun hflag hbase => ?_⟩
  · have htail : tailGroups f = [] := by
      simp [tailGroups, h1, h2, h3, h4]
    rw [htail, List.append_nil] at hsuf
    exact hsuf
  · obtain ⟨hne, hlast⟩ := tailGroups_last f hflag
    have h1 : (headerRequests f).getLast? = (tailGroups f).getLast? := by
      rw [headerRequests]
      exact List.getLast?_append_of_ne_nil _ hne
    have h2 : (headerRequests f).getLast? = avutilHeaders.getLast? :=
      suffix_getLast hbase (by decide)
    rw [h1] at h2
    exact hlast (h2.trans (by decide))

/-- C4 witness: with no feature flags enabled, the base block is a
suffix of the request list; with only postproc enabled, it is not. -/
theorem c4_witness :
    avutilHeaders <:+ headerRequests noFlags ∧
    ¬ avutilHeaders <:+ headerRequests postprocOnly :=
  ⟨(c4_amended noFlags).2.1 rfl rfl rfl rfl,
    (c4_amended postprocOnly).2.2 (Or.inl rfl)⟩

/-- C5: the macro named exactly `AV_ERROR_MAX_STRING_SIZE` is
classified as the unsigned host-native size type `usize`, whatever its
literal value. -/
theorem c5_error_max_usize (value : Int) :
    int_macro error_max_size value
      = some (IntKind.Custom (("usize").toList) false) := by
  have h1 : ¬ (i64_min ≤ value ∧ value ≤ i64_max ∧
      ch_layout_prefix <+: error_max_size) :=
    fun h => absurd h.2.2 (by decide)
  have h2 : ¬ (i32_min ≤ value ∧ value ≤ i32_max ∧
      ( codec_cap_prefix <+: error_max_size ∨
        codec_flag_prefix <+: error_max_size)) :=
    fun h => h.2.2.elim (fun hc => absurd hc (by decide))
      (fun hc => absurd hc (by decide))
  unfold int_macro
  rw [if_neg h1, if_neg h2, if_pos rfl]

/-- C6: a macro name carrying none of the three special prefixes and
different from `AV_ERROR_MAX_STRING_SIZE` is classified as a plain
signed 32-bit `IntKind::Int` when its value fits the 32-bit signed
range, and receives no override (`None`) otherwise. -/
theorem c6_default_cases (name : List Char) (value : Int)
    (h1 : ¬ ch_layout_prefix <+: name)
    (h2 : ¬ codec_cap_prefix <+: name)
    (h3 : ¬ codec_flag_prefix <+: name)
    (h4 : name ≠ error_max_size) :
    (i32_min ≤ value ∧ value ≤ i32_max →
      int_macro name value = some IntKind.Int) ∧
    (¬ (i32_min ≤ value ∧ value ≤ i32_max) →
      int_macro name value = none) := by
  have hn1 : ¬ (i64_min ≤ value ∧ value ≤ i64_max ∧
      ch_layout_prefix <+: name) := fun h => h1 h.2.2
  have hn2 : ¬ (i32_min ≤ value ∧ value ≤ i32_max ∧
      ( codec_cap_prefix <+: name ∨ codec_flag_prefix <+: name)) :=
    fun h => h.2.2.elim h2 h3
  constructor
  · intro hr
    unfold int_macro
    rw [if_neg hn1, if_neg hn2, if_neg h4, if_pos hr]
  · intro hr
    unfold int_macro
    rw [if_neg hn1, if_neg hn2, if_neg h4, if_neg hr]

/-- C6 witness: the unprefixed name `FF_LAMBDA_SHIFT` gets the plain
signed-32-bit kind at value 7 and no override at `2^31` (outside the
32-bit signed range). -/
theorem c6_witness :
    int_macro (("FF_LAMBDA_SHIFT").toList) 7 = some IntKind.Int ∧
    int_macro (("FF_LAMBDA_SHIFT").toList) 2147483648 = none :=
  ⟨(c6_default_cases (("FF_LAMBDA_SHIFT").toList) 7 (by decide) (by decide)
      (by decide) (by decide)).1 ⟨by decide, by decide⟩,
    (c6_default_cases (("FF_LAMBDA_SHIFT").toList) 2147483648 (by decide)
      (by decide) (by decide) (by decide)).2
      (by intro hcon; exact absurd hcon.2 (by decide))⟩

/-- C7: `search_include` returns the joined path under the first root
(in order) whose join with the header exists on the filesystem oracle,
and returns the fixed fallback `/usr/include/<header>` -- without
failing -- when no root contains the header. -/
theorem c7_search_include_spec (fsExists : List Char → Bool)
    (header : List Char) :
    (∀ (roots : List (List Char)),
      (∀ r ∈ roots, fsExists (joinPath r header) = false) →
      search_include fsExists roots header = usr_include ++ header) ∧
    (∀ (roots1 : List (List Char)) (r : List Char)
        (roots2 : List (List Char)),
      (∀ r' ∈ roots1, fsExists (joinPath r' header) = false) →
      fsExists (joinPath r header) = true →
      search_include fsExists (roots1 ++ r :: roots2) header
        = joinPath r header) := by
  constructor
  · intro roots h
    induction roots with
    | nil => rfl
    | cons dir rest ih =>
        rw [search_include, if_neg]
        · exact ih fun r hr => h r (List.mem_cons_of_mem dir hr)
        · simp [h dir (List.mem_cons_self dir rest)]
  · intro roots1 r roots2 h1 h2
    induction roots1 with
    | nil =>
        simp only [List.nil_append]
        rw [search_include, if_pos]
        simp [h2]
    | cons dir rest ih =>
        simp only [List.cons_append]
        rw [search_include, if_neg]
        · exact ih fun r' hr => h1 r' (List.mem_cons_of_mem dir hr)
        · simp [h1 dir (List.mem_cons_self dir rest)]

/-- C7 witness: with roots `[A, B]` and the header present only under
`B`, the resolver returns the path under `B`; with the header present
nowhere it returns the `/usr/include/` fallback. -/
theorem c7_witness :
    search_include (fun p => p = ("B/h.h").toList)
        [("A").toList, ("B").toList] (("h.h").toList) = ("B/h.h").toList ∧
    search_include (fun _ => false) [("A").toList, ("B").toList]
        (("h.h").toList) = ("/usr/include/h.h").toList := by
  constructor
  · have := (c7_search_include_spec
        (fun p => decide (p = ("B/h.h").toList)) (("h.h").toList)).2
      [("A").toList] (("B").toList) [] (by decide) (by decide)
    simpa using this
  · exact (c7_search_include_spec (fun _ => false) (("h.h").toList)).1
      [("A").toList, ("B").toList] (by intro r _; rfl)

/-- C8: with the serde feature disabled the post-processing step is the
identity on arbitrary input text. -/
theorem c8_postprocess_disabled_identity (text : List Char) :
    postprocess false text = text := rfl

/-- C9: with the serde feature enabled the post-processing rewrite is
idempotent -- applying it to its own output returns the output
unchanged, so no derive-attribute block in already-rewritten text is
annotated a second time. -/
theorem c9_postprocess_idempotent (text : List Char) :
    postprocess true (postprocess true text) = postprocess true text := by
  simpa [postprocess] using replaceAll_idem text

/-- C10: when `FFMPEG_SYS_BUILD_STACK_SIZE` is set but does not parse
as an integer, the `.unwrap()` of the parse result panics (modelled as
`none`) before the worker thread is spawned -- there is no fallback to
a default; the 3 MiB default is used exactly when the variable is
absent. -/
theorem c10_stack_size_env (s : String) :
    (∀ e, parse_usize s = Except.error e → main_stack_size (some s) = none) ∧
    main_stack_size none = some (3 * 1024 * 1024) := by
  constructor
  · intro e h
    simp [main_stack_size, stack_size_result, h]
  · rfl

/-- C10 witness: the unparsable value `"3 MiB"` aborts, while an absent
variable yields the 3 MiB default. -/
theorem c10_witness :
    parse_usize "3 MiB" = Except.error () ∧
    main_stack_size (some "3 MiB") = none ∧
    main_stack_size none = some 3145728 :=
  ⟨rfl, (c10_stack_size_env "3 MiB").1 () rfl,
    (c10_stack_size_env "3 MiB").2⟩

end FfmpegSys
